import Mathlib

/-!
Shallow embedding of `src/main.rs` (LLVM BN254 differential-testing harness).

The Rust code defines four recursive tensor builders generic over `F : Field`
(`recurse_add_only`, `recurse_mul_only`, `recurse_sub_only`, `recurse_mul_sub`),
an iterative `reference` builder, a deterministic vector generator `gen_vec`
over the BN254 scalar field, and a `main` that differential-tests the builders.

Mutable slices become lists passed functionally; every builder returns the
accumulator contents together with a `Bool` that is `true` when the call
returned normally and `false` when it panicked (out-of-bounds index in
`acc[0]` or `acc[i]`, or `split_at_mut` past the end).  On a panic the
returned list holds the writes performed before the panic, and no further
writes happen.  Only ring operations (`+`, `-`, `*`, `0`, `1`) are used by
the source, so the embedding is generic over a commutative ring.
-/

section Builders

variable {R : Type} [CommRing R]

/-- Embeds Rust `recurse_mul_sub` (src/main.rs lines 64-74): split the
accumulator at `1 << xs.len()`, pass `s0 = scalar - scalar * x0` to the low
half and `s1 = scalar * x0` to the high half; base case adds `scalar` into
cell 0.  The `Bool` is `false` exactly when the Rust code would panic. -/
def recurse_mul_sub : List R → List R → R → List R × Bool
  | acc, [], scalar =>
      match acc with
      | [] => ([], false)
      | a :: rest => ((a + scalar) :: rest, true)
  | acc, x0 :: xs, scalar =>
      if 2 ^ xs.length ≤ acc.length then
        let s1 := scalar * x0
        let s0 := scalar - s1
        let r0 := recurse_mul_sub (acc.take (2 ^ xs.length)) xs s0
        if r0.2 then
          let r1 := recurse_mul_sub (acc.drop (2 ^ xs.length)) xs s1
          (r0.1 ++ r1.1, r1.2)
        else
          (r0.1 ++ acc.drop (2 ^ xs.length), false)
      else (acc, false)

/-- Embeds Rust `recurse_add_only` (src/main.rs lines 16-25): split at
`acc.len() / 2` and add the scalar into cell 0 of every depth-0 slice. -/
def recurse_add_only : List R → ℕ → R → List R × Bool
  | acc, 0, scalar =>
      match acc with
      | [] => ([], false)
      | a :: rest => ((a + scalar) :: rest, true)
  | acc, depth + 1, scalar =>
      let r0 := recurse_add_only (acc.take (acc.length / 2)) depth scalar
      if r0.2 then
        let r1 := recurse_add_only (acc.drop (acc.length / 2)) depth scalar
        (r0.1 ++ r1.1, r1.2)
      else
        (r0.1 ++ acc.drop (acc.length / 2), false)

/-- Embeds Rust `recurse_mul_only` (src/main.rs lines 31-41): low half keeps
the original scalar, high half gets `scalar * x0`. -/
def recurse_mul_only : List R → List R → R → List R × Bool
  | acc, [], scalar =>
      match acc with
      | [] => ([], false)
      | a :: rest => ((a + scalar) :: rest, true)
  | acc, x0 :: xs, scalar =>
      if 2 ^ xs.length ≤ acc.length then
        let s1 := scalar * x0
        let r0 := recurse_mul_only (acc.take (2 ^ xs.length)) xs scalar
        if r0.2 then
          let r1 := recurse_mul_only (acc.drop (2 ^ xs.length)) xs s1
          (r0.1 ++ r1.1, r1.2)
        else
          (r0.1 ++ acc.drop (2 ^ xs.length), false)
      else (acc, false)

/-- Embeds Rust `recurse_sub_only` (src/main.rs lines 47-57): low half gets
`scalar - x0`, high half keeps the original scalar. -/
def recurse_sub_only : List R → List R → R → List R × Bool
  | acc, [], scalar =>
      match acc with
      | [] => ([], false)
      | a :: rest => ((a + scalar) :: rest, true)
  | acc, x0 :: xs, scalar =>
      if 2 ^ xs.length ≤ acc.length then
        let s0 := scalar - x0
        let r0 := recurse_sub_only (acc.take (2 ^ xs.length)) xs s0
        if r0.2 then
          let r1 := recurse_sub_only (acc.drop (2 ^ xs.length)) xs scalar
          (r0.1 ++ r1.1, r1.2)
        else
          (r0.1 ++ acc.drop (2 ^ xs.length), false)
      else (acc, false)

/-- Embeds the inner `for (j, &pj) in point.iter().enumerate()` loop of Rust
`reference` (src/main.rs lines 86-93).  The source shift amount
`point.len() - 1 - j` equals the number of coordinates after `pj`, so the
walk carries no explicit index: at each step the shift is `rest.length`. -/
def contribution (i : ℕ) : List R → R → R
  | [], c => c
  | pj :: rest, c =>
      contribution i rest (if (i >>> rest.length) % 2 = 1 then c * pj else c * (1 - pj))

/-- Generic indexed write loop: starting at index `i` with `fuel` iterations
left, replace cell `j` by `g j (old value)`; `false` models the panic of an
out-of-bounds `acc[i]`. -/
def buildLoop (g : ℕ → R → R) : ℕ → ℕ → List R → List R × Bool
  | _, 0, acc => (acc, true)
  | i, fuel + 1, acc =>
      if h : i < acc.length then
        buildLoop g (i + 1) fuel (acc.set i (g i (acc.get ⟨i, h⟩)))
      else (acc, false)

/-- Embeds Rust `reference` (src/main.rs lines 81-96): for each
`i < 2^point.len()`, add `contribution i point scalar` into cell `i`
(`black_box` is the identity). -/
def reference (acc point : List R) (scalar : R) : List R × Bool :=
  buildLoop (fun i a => a + contribution i point scalar) 0 (2 ^ point.length) acc

/-- Embeds the manual mul-only check loop inside `main`'s Test 2
(src/main.rs lines 127-134): multiply by `pj` only where the bit is 1. -/
def contribution2 (i : ℕ) : List R → R → R
  | [], c => c
  | pj :: rest, c =>
      contribution2 i rest (if (i >>> rest.length) % 2 = 1 then c * pj else c)

/-- Embeds the manual sub-only check loop inside `main`'s Test 3
(src/main.rs lines 148-155): subtract `pj` only where the bit is 0. -/
def contribution3 (i : ℕ) : List R → R → R
  | [], c => c
  | pj :: rest, c =>
      contribution3 i rest (if (i >>> rest.length) % 2 = 0 then c - pj else c)

/-- The in-`main` reference for Test 2: `acc2[j] = c` overwrites each cell
with the recomputed product (src/main.rs line 133). -/
def manualMulRef (acc point : List R) (scalar : R) : List R × Bool :=
  buildLoop (fun i _ => contribution2 i point scalar) 0 acc.length acc

/-- The in-`main` reference for Test 3: `acc2[j] = c` overwrites each cell
with the recomputed difference (src/main.rs line 154). -/
def manualSubRef (acc point : List R) (scalar : R) : List R × Bool :=
  buildLoop (fun i _ => contribution3 i point scalar) 0 acc.length acc

/-- Mathematical closed form of what `recurse_mul_sub` adds into a zeroed
accumulator of length `2^n`: the low half carries `s - s*x0`, the high half
`s*x0`. -/
def tensor : List R → R → List R
  | [], s => [s]
  | x0 :: xs, s => tensor xs (s - s * x0) ++ tensor xs (s * x0)

/-- Closed form for `recurse_mul_only`. -/
def tensorMul : List R → R → List R
  | [], s => [s]
  | x0 :: xs, s => tensorMul xs s ++ tensorMul xs (s * x0)

/-- Closed form for `recurse_sub_only`. -/
def tensorSub : List R → R → List R
  | [], s => [s]
  | x0 :: xs, s => tensorSub xs (s - x0) ++ tensorSub xs s

/-- Spec-side product from §4.2 of the specification: the factor for
coordinate `x_i` is `x_i` when bit `i` of `b`, counted from the most
significant of `n` bits, is 1, and `1 - x_i` otherwise.  Coordinate `x_i`
has `n - 1 - i` coordinates after it, so its bit index (from the least
significant end) is the length of the remaining list. -/
def eqTerm : List R → ℕ → R
  | [], _ => 1
  | x :: xs, b => (if (b >>> xs.length) % 2 = 1 then x else 1 - x) * eqTerm xs b

end Builders

/-- The BN254 scalar-field modulus from the `#[modulus = ...]` attribute on
`BN254Config` (src/main.rs line 7). -/
def bnModulus : ℕ :=
  21888242871839275222246405745257275088548364400416034343698204186575808495617

/-- The field `F = Fp256<MontBackend<BN254Config, 4>>` of src/main.rs line 10,
modelled as the integers modulo the BN254 scalar prime. -/
abbrev F : Type := ZMod bnModulus

/-- Embeds the closure iteration of Rust `gen_vec` (src/main.rs lines 98-102):
emit `current`, then replace it by `current * base + 1`. -/
def genVecAux (base : F) : ℕ → F → List F
  | 0, _ => []
  | k + 1, current => current :: genVecAux base k (current * base + 1)

/-- Embeds Rust `gen_vec` (src/main.rs lines 98-102): `base = F::from(seed)`
and the first emitted element is `base` itself. -/
def gen_vec (size : ℕ) (seed : ℕ) : List F :=
  genVecAux (seed : F) size (seed : F)

section ClosedForms

variable {R : Type} [CommRing R]

/-- Closed-form factor for the mul-only pattern: multiply by `x_i` on a 1 bit,
leave the accumulator alone on a 0 bit. -/
def eqTermMul : List R → ℕ → R
  | [], _ => 1
  | x :: xs, b => (if (b >>> xs.length) % 2 = 1 then x else 1) * eqTermMul xs b

/-- Closed-form correction for the sub-only pattern: the sum of the
coordinates sitting at 0 bits of the index. -/
def subSum : List R → ℕ → R
  | [], _ => 0
  | x :: xs, b => (if (b >>> xs.length) % 2 = 0 then x else 0) + subSum xs b

end ClosedForms

/-- `const ITERS: usize = 100` (src/main.rs line 105). -/
def ITERS : ℕ := 100

/-- `const DIM: usize = 10` (src/main.rs line 106). -/
def DIM : ℕ := 10

/-- `let size = 1 << DIM` (src/main.rs line 107). -/
def SIZE : ℕ := 2 ^ DIM

/-- Trial `i` of `main`'s Test 1 (src/main.rs lines 113-121): run
`recurse_add_only` on a zeroed accumulator and flag a mismatch when any cell
differs from the scalar.  First component: mismatch recorded; second
component: the builder returned without a panic. -/
def trial1 (i : ℕ) : Bool × Bool :=
  let scalar : F := ((i + 1 : ℕ) : F)
  let r := recurse_add_only (List.replicate SIZE (0 : F)) DIM scalar
  (r.1.any (fun x => decide (x ≠ scalar)), r.2)

/-- Trial `i` of `main`'s Test 2 (src/main.rs lines 125-141): compare
`recurse_mul_only` against the in-`main` manual mul-only loop. -/
def trial2 (i : ℕ) : Bool × Bool :=
  let point := gen_vec DIM (i + 2)
  let scalar : F := ((i + 2000 : ℕ) : F)
  let r1 := recurse_mul_only (List.replicate SIZE (0 : F)) point scalar
  let r2 := manualMulRef (List.replicate SIZE (0 : F)) point scalar
  (decide (r1.1 ≠ r2.1), r1.2 && r2.2)

/-- Trial `i` of `main`'s Test 3 (src/main.rs lines 144-162): compare
`recurse_sub_only` against the in-`main` manual sub-only loop. -/
def trial3 (i : ℕ) : Bool × Bool :=
  let point := gen_vec DIM (i + 3)
  let scalar : F := ((i + 3000 : ℕ) : F)
  let r1 := recurse_sub_only (List.replicate SIZE (0 : F)) point scalar
  let r2 := manualSubRef (List.replicate SIZE (0 : F)) point scalar
  (decide (r1.1 ≠ r2.1), r1.2 && r2.2)

/-- Trial `i` of `main`'s Test 4 (src/main.rs lines 165-178): compare
`recurse_mul_sub` against `reference`. -/
def trial4 (i : ℕ) : Bool × Bool :=
  let point := gen_vec DIM (i + 4)
  let scalar : F := ((i + 4000 : ℕ) : F)
  let r1 := recurse_mul_sub (List.replicate SIZE (0 : F)) point scalar
  let r2 := reference (List.replicate SIZE (0 : F)) point scalar
  (decide (r1.1 ≠ r2.1), r1.2 && r2.2)

/-- Mismatch count of Test 1 (`fails` after the first loop of `main`). -/
def fails1 : ℕ := (List.range ITERS).countP (fun i => (trial1 i).1)

/-- Mismatch count of Test 2. -/
def fails2 : ℕ := (List.range ITERS).countP (fun i => (trial2 i).1)

/-- Mismatch count of Test 3. -/
def fails3 : ℕ := (List.range ITERS).countP (fun i => (trial3 i).1)

/-- Mismatch count of Test 4. -/
def fails4 : ℕ := (List.range ITERS).countP (fun i => (trial4 i).1)

/-- Whether any trial of `main` hits a panic (out-of-bounds slice access);
a Rust panic in `main` aborts the process with a nonzero status. -/
def mainPanicked : Bool :=
  ((List.range ITERS).any fun i => !(trial1 i).2)
    || ((List.range ITERS).any fun i => !(trial2 i).2)
    || ((List.range ITERS).any fun i => !(trial3 i).2)
    || ((List.range ITERS).any fun i => !(trial4 i).2)

/-- Exit status of the process: Rust `main` returns `()` (src/main.rs lines
104-183), so the process exits 0 unless a panic aborts it (status 101).
No branch of `main` inspects the `fails` counters to choose an exit code. -/
def mainExitCode : ℕ := if mainPanicked then 101 else 0

section Lemmas

variable {R : Type} [CommRing R]

theorem tensor_length : ∀ (p : List R) (s : R), (tensor p s).length = 2 ^ p.length := by
  intro p
  induction p with
  | nil => intro s; simp [tensor]
  | cons x xs ih => intro s; simp [tensor, ih, Nat.two_pow_succ]

theorem tensorMul_length : ∀ (p : List R) (s : R), (tensorMul p s).length = 2 ^ p.length := by
  intro p
  induction p with
  | nil => intro s; simp [tensorMul]
  | cons x xs ih => intro s; simp [tensorMul, ih, Nat.two_pow_succ]

theorem tensorSub_length : ∀ (p : List R) (s : R), (tensorSub p s).length = 2 ^ p.length := by
  intro p
  induction p with
  | nil => intro s; simp [tensorSub]
  | cons x xs ih => intro s; simp [tensorSub, ih, Nat.two_pow_succ]

theorem recurse_mul_sub_spec : ∀ (p acc : List R) (s : R), 2 ^ p.length ≤ acc.length →
    recurse_mul_sub acc p s
      = (List.zipWith (· + ·) (acc.take (2 ^ p.length)) (tensor p s) ++ acc.drop (2 ^ p.length),
         true) := by
  intro p
  induction p with
  | nil =>
    intro acc s h
    cases acc with
    | nil => simp at h
    | cons a rest =>
      simp only [recurse_mul_sub, tensor, List.length_nil, Nat.pow_zero]
      simp
  | cons x xs ih =>
    intro acc s h
    have hlen : (2 : ℕ) ^ (x :: xs).length = 2 ^ xs.length + 2 ^ xs.length := by
      simp [Nat.two_pow_succ]
    rw [hlen] at h
    have hmid : 2 ^ xs.length ≤ acc.length := by omega
    have htake : (acc.take (2 ^ xs.length)).length = 2 ^ xs.length := by simp [hmid]
    have hdrop : 2 ^ xs.length ≤ (acc.drop (2 ^ xs.length)).length := by simp; omega
    simp only [recurse_mul_sub, if_pos hmid]
    rw [ih (acc.take (2 ^ xs.length)) (s - s * x) (le_of_eq htake.symm)]
    rw [ih (acc.drop (2 ^ xs.length)) (s * x) hdrop]
    simp only [if_true]
    simp only [List.take_take, min_self, List.drop_eq_nil_of_le (le_of_eq htake),
      List.append_nil, List.drop_drop]
    rw [List.length_cons, Nat.two_pow_succ, List.take_add, tensor]
    have hz : (acc.take (2 ^ xs.length)).length = (tensor xs (s - s * x)).length := by
      rw [htake, tensor_length]
    rw [List.zipWith_append _ _ _ _ _ hz]
    rw [List.append_assoc]

theorem recurse_mul_only_spec : ∀ (p acc : List R) (s : R), 2 ^ p.length ≤ acc.length →
    recurse_mul_only acc p s
      = (List.zipWith (· + ·) (acc.take (2 ^ p.length)) (tensorMul p s) ++ acc.drop (2 ^ p.length),
         true) := by
  intro p
  induction p with
  | nil =>
    intro acc s h
    cases acc with
    | nil => simp at h
    | cons a rest =>
      simp only [recurse_mul_only, tensorMul, List.length_nil, Nat.pow_zero]
      simp
  | cons x xs ih =>
    intro acc s h
    have hlen : (2 : ℕ) ^ (x :: xs).length = 2 ^ xs.length + 2 ^ xs.length := by
      simp [Nat.two_pow_succ]
    rw [hlen] at h
    have hmid : 2 ^ xs.length ≤ acc.length := by omega
    have htake : (acc.take (2 ^ xs.length)).length = 2 ^ xs.length := by simp [hmid]
    have hdrop : 2 ^ xs.length ≤ (acc.drop (2 ^ xs.length)).length := by simp; omega
    simp only [recurse_mul_only, if_pos hmid]
    rw [ih (acc.take (2 ^ xs.length)) s (le_of_eq htake.symm)]
    rw [ih (acc.drop (2 ^ xs.length)) (s * x) hdrop]
    simp only [if_true]
    simp only [List.take_take, min_self, List.drop_eq_nil_of_le (le_of_eq htake),
      List.append_nil, List.drop_drop]
    rw [List.length_cons, Nat.two_pow_succ, List.take_add, tensorMul]
    have hz : (acc.take (2 ^ xs.length)).length = (tensorMul xs s).length := by
      rw [htake, tensorMul_length]
    rw [List.zipWith_append _ _ _ _ _ hz]
    rw [List.append_assoc]

theorem recurse_sub_only_spec : ∀ (p acc : List R) (s : R), 2 ^ p.length ≤ acc.length →
    recurse_sub_only acc p s
      = (List.zipWith (· + ·) (acc.take (2 ^ p.length)) (tensorSub p s) ++ acc.drop (2 ^ p.length),
         true) := by
  intro p
  induction p with
  | nil =>
    intro acc s h
    cases acc with
    | nil => simp at h
    | cons a rest =>
      simp only [recurse_sub_only, tensorSub, List.length_nil, Nat.pow_zero]
      simp
  | cons x xs ih =>
    intro acc s h
    have hlen : (2 : ℕ) ^ (x :: xs).length = 2 ^ xs.length + 2 ^ xs.length := by
      simp [Nat.two_pow_succ]
    rw [hlen] at h
    have hmid : 2 ^ xs.length ≤ acc.length := by omega
    have htake : (acc.take (2 ^ xs.length)).length = 2 ^ xs.length := by simp [hmid]
    have hdrop : 2 ^ xs.length ≤ (acc.drop (2 ^ xs.length)).length := by simp; omega
    simp only [recurse_sub_only, if_pos hmid]
    rw [ih (acc.take (2 ^ xs.length)) (s - x) (le_of_eq htake.symm)]
    rw [ih (acc.drop (2 ^ xs.length)) s hdrop]
    simp only [if_true]
    simp only [List.take_take, min_self, List.drop_eq_nil_of_le (le_of_eq htake),
      List.append_nil, List.drop_drop]
    rw [List.length_cons, Nat.two_pow_succ, List.take_add, tensorSub]
    have hz : (acc.take (2 ^ xs.length)).length = (tensorSub xs (s - x)).length := by
      rw [htake, tensorSub_length]
    rw [List.zipWith_append _ _ _ _ _ hz]
    rw [List.append_assoc]

theorem recurse_add_only_spec : ∀ (depth : ℕ) (acc : List R) (s : R),
    acc.length = 2 ^ depth →
    recurse_add_only acc depth s = (acc.map (· + s), true) := by
  intro depth
  induction depth with
  | zero =>
    intro acc s h
    match acc, h with
    | [a], _ => simp [recurse_add_only]
  | succ d ih =>
    intro acc s h
    have hhalf : acc.length / 2 = 2 ^ d := by
      rw [h, pow_succ, Nat.mul_div_cancel _ (by norm_num)]
    have htake : (acc.take (acc.length / 2)).length = 2 ^ d := by
      rw [List.length_take, hhalf, h]
      have : (2:ℕ) ^ d ≤ 2 ^ (d + 1) := Nat.pow_le_pow_right (by norm_num) (Nat.le_succ d)
      omega
    have hdrop : (acc.drop (acc.length / 2)).length = 2 ^ d := by
      rw [List.length_drop, hhalf, h, Nat.two_pow_succ]
      omega
    simp only [recurse_add_only]
    rw [ih (acc.take (acc.length / 2)) s htake]
    rw [ih (acc.drop (acc.length / 2)) s hdrop]
    simp only [if_true]
    rw [← List.map_append, List.take_append_drop]

end Lemmas

section PointwiseLemmas

variable {R : Type} [CommRing R]

theorem buildLoop_length (g : ℕ → R → R) :
    ∀ (fuel i : ℕ) (acc : List R), (buildLoop g i fuel acc).1.length = acc.length := by
  intro fuel
  induction fuel with
  | zero => intro i acc; rfl
  | succ f ih =>
    intro i acc
    rw [buildLoop]
    split
    · rw [ih]; simp
    · rfl

theorem buildLoop_flag_true (g : ℕ → R → R) :
    ∀ (fuel i : ℕ) (acc : List R), i + fuel ≤ acc.length →
      (buildLoop g i fuel acc).2 = true := by
  intro fuel
  induction fuel with
  | zero => intro i acc h; rfl
  | succ f ih =>
    intro i acc h
    have hi : i < acc.length := by omega
    rw [buildLoop, dif_pos hi]
    exact ih (i + 1) _ (by simp; omega)

theorem buildLoop_flag_false (g : ℕ → R → R) :
    ∀ (fuel i : ℕ) (acc : List R), acc.length < i + fuel → 0 < fuel →
      (buildLoop g i fuel acc).2 = false := by
  intro fuel
  induction fuel with
  | zero => intro i acc h hf; omega
  | succ f ih =>
    intro i acc h hf
    rw [buildLoop]
    split
    · rename_i hi
      exact ih (i + 1) _ (by simp; omega) (by omega)
    · rfl

theorem buildLoop_getD (g : ℕ → R → R) :
    ∀ (fuel i : ℕ) (acc : List R), i + fuel ≤ acc.length → ∀ j, j < acc.length →
      (buildLoop g i fuel acc).1.getD j 0
        = if i ≤ j ∧ j < i + fuel then g j (acc.getD j 0) else acc.getD j 0 := by
  intro fuel
  induction fuel with
  | zero =>
    intro i acc h j hj
    rw [if_neg (by omega)]
    rfl
  | succ f ih =>
    intro i acc h j hj
    have hi : i < acc.length := by omega
    rw [buildLoop, dif_pos hi]
    rw [ih (i + 1) _ (by simp; omega) j (by simp; omega)]
    by_cases hji : j = i
    · subst hji
      rw [if_neg (by omega), if_pos (by omega)]
      rw [List.getD_eq_getElem _ _ (by simpa using hi), List.getD_eq_getElem _ _ hi]
      rw [List.getElem_set_self]
      simp [List.get_eq_getElem]
    · have hne : i ≠ j := fun hh => hji hh.symm
      have hset : (acc.set i (g i (acc.get ⟨i, hi⟩))).getD j 0 = acc.getD j 0 := by
        rw [List.getD_eq_getElem _ _ (by simpa using hj), List.getD_eq_getElem _ _ hj]
        exact List.getElem_set_ne hne _
      rw [hset]
      split_ifs <;> first | rfl | omega

theorem shift_mod_two_add_pow (k m b : ℕ) (h : k < m) :
    ((2 ^ m + b) >>> k) % 2 = (b >>> k) % 2 := by
  have h2 : (2 : ℕ) ^ m = 2 ^ k * 2 ^ (m - k) := by
    rw [← pow_add]
    congr 1
    omega
  rw [Nat.shiftRight_eq_div_pow, Nat.shiftRight_eq_div_pow, h2]
  rw [Nat.mul_add_div (Nat.pos_pow_of_pos k (by norm_num))]
  have h3 : (2 : ℕ) ^ (m - k) = 2 * 2 ^ (m - k - 1) := by
    rw [← pow_succ']
    congr 1
    omega
  rw [h3, Nat.mul_add_mod]

theorem eqTerm_add_pow : ∀ (p : List R) (m b : ℕ), p.length ≤ m →
    eqTerm p (2 ^ m + b) = eqTerm p b := by
  intro p
  induction p with
  | nil => intro m b h; rfl
  | cons x xs ih =>
    intro m b h
    simp only [eqTerm]
    rw [shift_mod_two_add_pow _ _ _ (by simp at h; omega), ih m b (by simp at h; omega)]

theorem eqTermMul_add_pow : ∀ (p : List R) (m b : ℕ), p.length ≤ m →
    eqTermMul p (2 ^ m + b) = eqTermMul p b := by
  intro p
  induction p with
  | nil => intro m b h; rfl
  | cons x xs ih =>
    intro m b h
    simp only [eqTermMul]
    rw [shift_mod_two_add_pow _ _ _ (by simp at h; omega), ih m b (by simp at h; omega)]

theorem subSum_add_pow : ∀ (p : List R) (m b : ℕ), p.length ≤ m →
    subSum p (2 ^ m + b) = subSum p b := by
  intro p
  induction p with
  | nil => intro m b h; rfl
  | cons x xs ih =>
    intro m b h
    simp only [subSum]
    rw [shift_mod_two_add_pow _ _ _ (by simp at h; omega), ih m b (by simp at h; omega)]

theorem contribution_eq : ∀ (p : List R) (c : R) (i : ℕ),
    contribution i p c = c * eqTerm p i := by
  intro p
  induction p with
  | nil => intro c i; simp [contribution, eqTerm]
  | cons x xs ih =>
    intro c i
    simp only [contribution, eqTerm, ih]
    split_ifs <;> ring

theorem contribution2_eq : ∀ (p : List R) (c : R) (i : ℕ),
    contribution2 i p c = c * eqTermMul p i := by
  intro p
  induction p with
  | nil => intro c i; simp [contribution2, eqTermMul]
  | cons x xs ih =>
    intro c i
    simp only [contribution2, eqTermMul, ih]
    split_ifs <;> ring

theorem contribution3_eq : ∀ (p : List R) (c : R) (i : ℕ),
    contribution3 i p c = c - subSum p i := by
  intro p
  induction p with
  | nil => intro c i; simp [contribution3, subSum]
  | cons x xs ih =>
    intro c i
    simp only [contribution3, subSum, ih]
    split_ifs <;> ring

end PointwiseLemmas

section GetDLemmas

variable {R : Type} [CommRing R]

theorem tensor_getD : ∀ (p : List R) (s : R) (b : ℕ), b < 2 ^ p.length →
    (tensor p s).getD b 0 = s * eqTerm p b := by
  intro p
  induction p with
  | nil =>
    intro s b hb
    have hb0 : b = 0 := by simpa using Nat.lt_one_iff.mp (by simpa using hb)
    subst hb0
    simp [tensor, eqTerm]
  | cons x xs ih =>
    intro s b hb
    have hT0 : (tensor xs (s - s * x)).length = 2 ^ xs.length := tensor_length xs _
    rw [List.length_cons, Nat.two_pow_succ] at hb
    simp only [tensor, eqTerm]
    by_cases hlow : b < 2 ^ xs.length
    · have hbit : (b >>> xs.length) % 2 = 0 := by
        rw [Nat.shiftRight_eq_div_pow, Nat.div_eq_of_lt hlow]
      rw [List.getD_append _ _ _ _ (by omega), ih (s - s * x) b hlow]
      rw [if_neg (by simp [hbit])]
      ring
    · have hb' : b - 2 ^ xs.length < 2 ^ xs.length := by omega
      have hbeq : b = 2 ^ xs.length + (b - 2 ^ xs.length) := by omega
      have hdiv : b / 2 ^ xs.length = 1 := Nat.div_eq_of_lt_le (by omega) (by omega)
      have hbit : (b >>> xs.length) % 2 = 1 := by
        rw [Nat.shiftRight_eq_div_pow, hdiv]
      have hge : (tensor xs (s - s * x)).length ≤ b := by omega
      rw [List.getD_append_right _ _ _ _ hge, hT0,
        ih (s * x) (b - 2 ^ xs.length) hb']
      rw [if_pos hbit]
      conv_rhs => rw [hbeq, eqTerm_add_pow xs xs.length _ (le_refl _)]
      ring

theorem tensorMul_getD : ∀ (p : List R) (s : R) (b : ℕ), b < 2 ^ p.length →
    (tensorMul p s).getD b 0 = s * eqTermMul p b := by
  intro p
  induction p with
  | nil =>
    intro s b hb
    have hb0 : b = 0 := by simpa using Nat.lt_one_iff.mp (by simpa using hb)
    subst hb0
    simp [tensorMul, eqTermMul]
  | cons x xs ih =>
    intro s b hb
    have hT0 : (tensorMul xs s).length = 2 ^ xs.length := tensorMul_length xs _
    rw [List.length_cons, Nat.two_pow_succ] at hb
    simp only [tensorMul, eqTermMul]
    by_cases hlow : b < 2 ^ xs.length
    · have hbit : (b >>> xs.length) % 2 = 0 := by
        rw [Nat.shiftRight_eq_div_pow, Nat.div_eq_of_lt hlow]
      rw [List.getD_append _ _ _ _ (by omega), ih s b hlow]
      rw [if_neg (by simp [hbit])]
      ring
    · have hb' : b - 2 ^ xs.length < 2 ^ xs.length := by omega
      have hbeq : b = 2 ^ xs.length + (b - 2 ^ xs.length) := by omega
      have hdiv : b / 2 ^ xs.length = 1 := Nat.div_eq_of_lt_le (by omega) (by omega)
      have hbit : (b >>> xs.length) % 2 = 1 := by
        rw [Nat.shiftRight_eq_div_pow, hdiv]
      have hge : (tensorMul xs s).length ≤ b := by omega
      rw [List.getD_append_right _ _ _ _ hge, hT0,
        ih (s * x) (b - 2 ^ xs.length) hb']
      rw [if_pos hbit]
      conv_rhs => rw [hbeq, eqTermMul_add_pow xs xs.length _ (le_refl _)]
      ring

theorem tensorSub_getD : ∀ (p : List R) (s : R) (b : ℕ), b < 2 ^ p.length →
    (tensorSub p s).getD b 0 = s - subSum p b := by
  intro p
  induction p with
  | nil =>
    intro s b hb
    have hb0 : b = 0 := by simpa using Nat.lt_one_iff.mp (by simpa using hb)
    subst hb0
    simp [tensorSub, subSum]
  | cons x xs ih =>
    intro s b hb
    have hT0 : (tensorSub xs (s - x)).length = 2 ^ xs.length := tensorSub_length xs _
    rw [List.length_cons, Nat.two_pow_succ] at hb
    simp only [tensorSub, subSum]
    by_cases hlow : b < 2 ^ xs.length
    · have hbit : (b >>> xs.length) % 2 = 0 := by
        rw [Nat.shiftRight_eq_div_pow, Nat.div_eq_of_lt hlow]
      rw [List.getD_append _ _ _ _ (by omega), ih (s - x) b hlow]
      rw [if_pos hbit]
      ring
    · have hb' : b - 2 ^ xs.length < 2 ^ xs.length := by omega
      have hbeq : b = 2 ^ xs.length + (b - 2 ^ xs.length) := by omega
      have hdiv : b / 2 ^ xs.length = 1 := Nat.div_eq_of_lt_le (by omega) (by omega)
      have hbit : (b >>> xs.length) % 2 = 1 := by
        rw [Nat.shiftRight_eq_div_pow, hdiv]
      have hge : (tensorSub xs (s - x)).length ≤ b := by omega
      rw [List.getD_append_right _ _ _ _ hge, hT0,
        ih s (b - 2 ^ xs.length) hb']
      rw [if_neg (by simp [hbit])]
      conv_rhs => rw [hbeq, subSum_add_pow xs xs.length _ (le_refl _)]
      ring

theorem zip_take_drop_getD (acc t : List R) (n : ℕ) (hn : n ≤ acc.length)
    (ht : t.length = n) :
    ∀ j, j < acc.length →
      (List.zipWith (· + ·) (acc.take n) t ++ acc.drop n).getD j 0
        = if j < n then acc.getD j 0 + t.getD j 0 else acc.getD j 0 := by
  intro j hj
  have htake : (acc.take n).length = n := by simp [hn]
  have hzip : (List.zipWith (· + ·) (acc.take n) t).length = n := by
    rw [List.length_zipWith, htake, ht, min_self]
  by_cases hjn : j < n
  · rw [List.getD_append _ _ _ _ (by omega), if_pos hjn]
    rw [List.getD_eq_getElem _ _ (by omega), List.getElem_zipWith]
    rw [List.getD_eq_getElem _ _ hj, List.getD_eq_getElem _ _ (by omega)]
    congr 1
    exact List.getElem_take ..
  · rw [List.getD_append_right _ _ _ _ (by omega), if_neg hjn, hzip]
    rw [List.getD_eq_getElem _ _ (by simp; omega), List.getD_eq_getElem _ _ hj]
    rw [List.getElem_drop]
    congr 1
    omega

theorem zip_take_drop_length (acc t : List R) (n : ℕ) (hn : n ≤ acc.length)
    (ht : t.length = n) :
    (List.zipWith (· + ·) (acc.take n) t ++ acc.drop n).length = acc.length := by
  rw [List.length_append, List.length_zipWith, List.length_take, List.length_drop, ht]
  omega

end GetDLemmas

section DerivedLemmas

variable {R : Type} [CommRing R]

theorem ext_getD (l l' : List R) (h : l.length = l'.length)
    (hp : ∀ j, j < l.length → l.getD j 0 = l'.getD j 0) : l = l' := by
  apply List.ext_getElem h
  intro i h1 h2
  rw [← List.getD_eq_getElem l 0 h1, ← List.getD_eq_getElem l' 0 h2]
  exact hp i h1

theorem recurse_mul_sub_length (p acc : List R) (s : R) (h : 2 ^ p.length ≤ acc.length) :
    (recurse_mul_sub acc p s).1.length = acc.length := by
  rw [recurse_mul_sub_spec p acc s h]
  exact zip_take_drop_length acc (tensor p s) (2 ^ p.length) h (tensor_length p s)

theorem recurse_mul_sub_getD (p acc : List R) (s : R) (h : 2 ^ p.length ≤ acc.length) :
    ∀ j, j < acc.length →
      (recurse_mul_sub acc p s).1.getD j 0
        = if j < 2 ^ p.length then acc.getD j 0 + s * eqTerm p j else acc.getD j 0 := by
  intro j hj
  rw [recurse_mul_sub_spec p acc s h]
  rw [zip_take_drop_getD acc (tensor p s) (2 ^ p.length) h (tensor_length p s) j hj]
  by_cases hjn : j < 2 ^ p.length
  · rw [if_pos hjn, if_pos hjn, tensor_getD p s j hjn]
  · rw [if_neg hjn, if_neg hjn]

theorem recurse_mul_only_length (p acc : List R) (s : R) (h : 2 ^ p.length ≤ acc.length) :
    (recurse_mul_only acc p s).1.length = acc.length := by
  rw [recurse_mul_only_spec p acc s h]
  exact zip_take_drop_length acc (tensorMul p s) (2 ^ p.length) h (tensorMul_length p s)

theorem recurse_mul_only_getD (p acc : List R) (s : R) (h : 2 ^ p.length ≤ acc.length) :
    ∀ j, j < acc.length →
      (recurse_mul_only acc p s).1.getD j 0
        = if j < 2 ^ p.length then acc.getD j 0 + s * eqTermMul p j else acc.getD j 0 := by
  intro j hj
  rw [recurse_mul_only_spec p acc s h]
  rw [zip_take_drop_getD acc (tensorMul p s) (2 ^ p.length) h (tensorMul_length p s) j hj]
  by_cases hjn : j < 2 ^ p.length
  · rw [if_pos hjn, if_pos hjn, tensorMul_getD p s j hjn]
  · rw [if_neg hjn, if_neg hjn]

theorem recurse_sub_only_length (p acc : List R) (s : R) (h : 2 ^ p.length ≤ acc.length) :
    (recurse_sub_only acc p s).1.length = acc.length := by
  rw [recurse_sub_only_spec p acc s h]
  exact zip_take_drop_length acc (tensorSub p s) (2 ^ p.length) h (tensorSub_length p s)

theorem recurse_sub_only_getD (p acc : List R) (s : R) (h : 2 ^ p.length ≤ acc.length) :
    ∀ j, j < acc.length →
      (recurse_sub_only acc p s).1.getD j 0
        = if j < 2 ^ p.length then acc.getD j 0 + (s - subSum p j) else acc.getD j 0 := by
  intro j hj
  rw [recurse_sub_only_spec p acc s h]
  rw [zip_take_drop_getD acc (tensorSub p s) (2 ^ p.length) h (tensorSub_length p s) j hj]
  by_cases hjn : j < 2 ^ p.length
  · rw [if_pos hjn, if_pos hjn, tensorSub_getD p s j hjn]
  · rw [if_neg hjn, if_neg hjn]

theorem reference_length (p acc : List R) (s : R) :
    (reference acc p s).1.length = acc.length :=
  buildLoop_length _ _ _ _

theorem reference_flag_true (p acc : List R) (s : R) (h : 2 ^ p.length ≤ acc.length) :
    (reference acc p s).2 = true :=
  buildLoop_flag_true _ _ _ _ (by omega)

theorem reference_flag_false (p acc : List R) (s : R) (h : acc.length < 2 ^ p.length) :
    (reference acc p s).2 = false :=
  buildLoop_flag_false _ _ _ _ (by omega) (Nat.two_pow_pos _)

theorem reference_getD (p acc : List R) (s : R) (h : 2 ^ p.length ≤ acc.length) :
    ∀ j, j < acc.length →
      (reference acc p s).1.getD j 0
        = if j < 2 ^ p.length then acc.getD j 0 + s * eqTerm p j else acc.getD j 0 := by
  intro j hj
  rw [reference, buildLoop_getD _ (2 ^ p.length) 0 acc (by omega) j hj]
  simp only [Nat.zero_le, true_and, Nat.zero_add]
  by_cases hjn : j < 2 ^ p.length
  · rw [if_pos hjn, if_pos hjn, contribution_eq p s j]
  · rw [if_neg hjn, if_neg hjn]

theorem manualMulRef_getD (p acc : List R) (s : R) :
    ∀ j, j < acc.length →
      (manualMulRef acc p s).1.getD j 0 = s * eqTermMul p j := by
  intro j hj
  rw [manualMulRef, buildLoop_getD _ acc.length 0 acc (by omega) j hj]
  rw [if_pos (by omega), contribution2_eq p s j]

theorem manualSubRef_getD (p acc : List R) (s : R) :
    ∀ j, j < acc.length →
      (manualSubRef acc p s).1.getD j 0 = s - subSum p j := by
  intro j hj
  rw [manualSubRef, buildLoop_getD _ acc.length 0 acc (by omega) j hj]
  rw [if_pos (by omega), contribution3_eq p s j]

theorem replicate_zero_getD (n j : ℕ) :
    (List.replicate n (0 : R)).getD j 0 = 0 := by
  by_cases hj : j < n
  · rw [List.getD_eq_getElem _ _ (by simpa using hj)]
    exact List.getElem_replicate ..
  · exact List.getD_eq_default _ _ (by simpa using Nat.le_of_not_lt hj)

theorem rms_eq_reference (p acc : List R) (s : R) (h : 2 ^ p.length ≤ acc.length) :
    (recurse_mul_sub acc p s).1 = (reference acc p s).1 := by
  apply ext_getD
  · rw [recurse_mul_sub_length p acc s h, reference_length]
  · intro j hj
    rw [recurse_mul_sub_length p acc s h] at hj
    rw [recurse_mul_sub_getD p acc s h j hj, reference_getD p acc s h j hj]

theorem mulOnly_eq_manual (p : List R) (s : R) :
    (recurse_mul_only (List.replicate (2 ^ p.length) 0) p s).1
      = (manualMulRef (List.replicate (2 ^ p.length) 0) p s).1 := by
  have hlen : (List.replicate (2 ^ p.length) (0 : R)).length = 2 ^ p.length := by simp
  apply ext_getD
  · rw [recurse_mul_only_length p _ s (by rw [hlen]), manualMulRef, buildLoop_length]
  · intro j hj
    rw [recurse_mul_only_length p _ s (by rw [hlen]), hlen] at hj
    rw [recurse_mul_only_getD p _ s (by rw [hlen]) j (by rw [hlen]; exact hj)]
    rw [manualMulRef_getD p _ s j (by rw [hlen]; exact hj)]
    rw [if_pos hj, replicate_zero_getD, zero_add]

theorem subOnly_eq_manual (p : List R) (s : R) :
    (recurse_sub_only (List.replicate (2 ^ p.length) 0) p s).1
      = (manualSubRef (List.replicate (2 ^ p.length) 0) p s).1 := by
  have hlen : (List.replicate (2 ^ p.length) (0 : R)).length = 2 ^ p.length := by simp
  apply ext_getD
  · rw [recurse_sub_only_length p _ s (by rw [hlen]), manualSubRef, buildLoop_length]
  · intro j hj
    rw [recurse_sub_only_length p _ s (by rw [hlen]), hlen] at hj
    rw [recurse_sub_only_getD p _ s (by rw [hlen]) j (by rw [hlen]; exact hj)]
    rw [manualSubRef_getD p _ s j (by rw [hlen]; exact hj)]
    rw [if_pos hj, replicate_zero_getD, zero_add]

end DerivedLemmas

section AlgebraLemmas

variable {R : Type} [CommRing R]

theorem tensor_sum : ∀ (p : List R) (s : R), (tensor p s).sum = s := by
  intro p
  induction p with
  | nil => intro s; simp [tensor]
  | cons x xs ih =>
    intro s
    simp only [tensor, List.sum_append, ih]
    ring

theorem list_sum_eq_range_sum : ∀ (l : List R),
    l.sum = ∑ b ∈ Finset.range l.length, l.getD b 0 := by
  intro l
  induction l with
  | nil => simp
  | cons a t ih =>
    rw [List.sum_cons, List.length_cons, Finset.sum_range_succ']
    simp only [List.getD_cons_succ, List.getD_cons_zero]
    rw [ih]
    ring

theorem zipWith_replicate_zero_add : ∀ (t : List R),
    List.zipWith (· + ·) (List.replicate t.length 0) t = t := by
  intro t
  induction t with
  | nil => rfl
  | cons a t ih => simp [List.replicate_succ, ih]

theorem rms_zero_acc (p : List R) (s : R) :
    (recurse_mul_sub (List.replicate (2 ^ p.length) 0) p s).1 = tensor p s := by
  rw [recurse_mul_sub_spec p _ s (by simp)]
  simp only [List.take_replicate, min_self, List.drop_replicate, Nat.sub_self,
    List.replicate_zero, List.append_nil]
  have h := zipWith_replicate_zero_add (tensor p s)
  rwa [tensor_length p s] at h

theorem eqTerm_sum_one (p : List R) :
    ∑ b ∈ Finset.range (2 ^ p.length), eqTerm p b = (1 : R) := by
  have h1 : (tensor p (1 : R)).sum = 1 := tensor_sum p 1
  rw [list_sum_eq_range_sum, tensor_length] at h1
  calc ∑ b ∈ Finset.range (2 ^ p.length), eqTerm p b
      = ∑ b ∈ Finset.range (2 ^ p.length), (tensor p (1 : R)).getD b 0 := by
        apply Finset.sum_congr rfl
        intro b hb
        rw [tensor_getD p 1 b (Finset.mem_range.mp hb), one_mul]
    _ = 1 := h1

theorem tensor_zero_scalar : ∀ (p : List R),
    tensor p (0 : R) = List.replicate (2 ^ p.length) 0 := by
  intro p
  induction p with
  | nil => simp [tensor]
  | cons x xs ih =>
    simp only [tensor, zero_mul, sub_zero, ih]
    rw [← List.replicate_add, List.length_cons, Nat.two_pow_succ]

theorem tensor_all_zero : ∀ (p : List R) (s : R), (∀ x ∈ p, x = 0) →
    tensor p s = s :: List.replicate (2 ^ p.length - 1) 0 := by
  intro p
  induction p with
  | nil => intro s _; simp [tensor]
  | cons x xs ih =>
    intro s h
    have hx : x = 0 := h x (by simp)
    have hxs : ∀ y ∈ xs, y = 0 := fun y hy => h y (by simp [hy])
    have harith : 2 ^ xs.length - 1 + 2 ^ xs.length = 2 ^ (xs.length + 1) - 1 := by
      have := Nat.two_pow_pos xs.length
      rw [Nat.two_pow_succ]
      omega
    simp only [tensor, hx, mul_zero, sub_zero]
    rw [ih s hxs, tensor_zero_scalar, List.cons_append, ← List.replicate_add, harith,
      List.length_cons]

theorem tensor_all_one : ∀ (p : List R) (s : R), (∀ x ∈ p, x = 1) →
    tensor p s = List.replicate (2 ^ p.length - 1) 0 ++ [s] := by
  intro p
  induction p with
  | nil => intro s _; simp [tensor]
  | cons x xs ih =>
    intro s h
    have hx : x = 1 := h x (by simp)
    have hxs : ∀ y ∈ xs, y = 1 := fun y hy => h y (by simp [hy])
    have harith : 2 ^ xs.length + (2 ^ xs.length - 1) = 2 ^ (xs.length + 1) - 1 := by
      have := Nat.two_pow_pos xs.length
      rw [Nat.two_pow_succ]
      omega
    simp only [tensor, hx, mul_one, sub_self]
    rw [ih s hxs, tensor_zero_scalar, ← List.append_assoc, ← List.replicate_add, harith,
      List.length_cons]

theorem tensor_add_scalar : ∀ (p : List R) (s s' : R),
    tensor p (s + s') = List.zipWith (· + ·) (tensor p s) (tensor p s') := by
  intro p
  induction p with
  | nil => intro s s'; simp [tensor]
  | cons x xs ih =>
    intro s s'
    simp only [tensor]
    rw [show s + s' - (s + s') * x = s - s * x + (s' - s' * x) from by ring,
      show (s + s') * x = s * x + s' * x from by ring, ih, ih]
    rw [List.zipWith_append _ _ _ _ _ (by rw [tensor_length, tensor_length])]

theorem zipWith_add_assoc : ∀ (a b c : List R),
    List.zipWith (· + ·) (List.zipWith (· + ·) a b) c
      = List.zipWith (· + ·) a (List.zipWith (· + ·) b c) := by
  intro a
  induction a with
  | nil => intro b c; rfl
  | cons x xs ih =>
    intro b c
    cases b with
    | nil => rfl
    | cons y ys =>
      cases c with
      | nil => rfl
      | cons z zs => simp [ih, add_assoc]

theorem recurse_mul_sub_flag_true (p acc : List R) (s : R) (h : 2 ^ p.length ≤ acc.length) :
    (recurse_mul_sub acc p s).2 = true := by
  rw [recurse_mul_sub_spec p acc s h]

theorem recurse_mul_only_flag_true (p acc : List R) (s : R) (h : 2 ^ p.length ≤ acc.length) :
    (recurse_mul_only acc p s).2 = true := by
  rw [recurse_mul_only_spec p acc s h]

theorem recurse_sub_only_flag_true (p acc : List R) (s : R) (h : 2 ^ p.length ≤ acc.length) :
    (recurse_sub_only acc p s).2 = true := by
  rw [recurse_sub_only_spec p acc s h]

theorem recurse_add_only_flag_true (depth : ℕ) (acc : List R) (s : R)
    (h : acc.length = 2 ^ depth) : (recurse_add_only acc depth s).2 = true := by
  rw [recurse_add_only_spec depth acc s h]

theorem manualMulRef_flag_true (p acc : List R) (s : R) :
    (manualMulRef acc p s).2 = true :=
  buildLoop_flag_true _ _ _ _ (by omega)

theorem manualSubRef_flag_true (p acc : List R) (s : R) :
    (manualSubRef acc p s).2 = true :=
  buildLoop_flag_true _ _ _ _ (by omega)

theorem recurse_mul_sub_flag_false : ∀ (p acc : List R) (s : R),
    acc.length < 2 ^ p.length → (recurse_mul_sub acc p s).2 = false := by
  intro p
  induction p with
  | nil =>
    intro acc s h
    cases acc with
    | nil => rfl
    | cons a rest => simp at h
  | cons x xs ih =>
    intro acc s h
    rw [List.length_cons, Nat.two_pow_succ] at h
    by_cases hmid : 2 ^ xs.length ≤ acc.length
    · have htake : (acc.take (2 ^ xs.length)).length = 2 ^ xs.length := by simp [hmid]
      simp only [recurse_mul_sub, if_pos hmid]
      rw [recurse_mul_sub_spec xs (acc.take (2 ^ xs.length)) _ (le_of_eq htake.symm)]
      simp only [if_true]
      exact ih (acc.drop (2 ^ xs.length)) (s * x) (by simp; omega)
    · simp only [recurse_mul_sub, if_neg hmid]

end AlgebraLemmas

theorem genVecAux_length : ∀ (k : ℕ) (base c : F), (genVecAux base k c).length = k := by
  intro k
  induction k with
  | zero => intro base c; rfl
  | succ n ih => intro base c; simp [genVecAux, ih]

theorem gen_vec_length (size seed : ℕ) : (gen_vec size seed).length = size :=
  genVecAux_length size _ _

theorem genVecAux_getD_zero (k : ℕ) (base c : F) (h : 0 < k) :
    (genVecAux base k c).getD 0 0 = c := by
  cases k with
  | zero => omega
  | succ n => rfl

theorem genVecAux_getD_succ : ∀ (k : ℕ) (base c : F) (j : ℕ), j + 1 < k →
    (genVecAux base k c).getD (j + 1) 0 = (genVecAux base k c).getD j 0 * base + 1 := by
  intro k
  induction k with
  | zero => intro base c j h; omega
  | succ n ih =>
    intro base c j h
    cases j with
    | zero =>
      simp only [genVecAux, List.getD_cons_succ, List.getD_cons_zero]
      rw [genVecAux_getD_zero n base _ (by omega)]
    | succ j' =>
      simp only [genVecAux, List.getD_cons_succ]
      exact ih base (c * base + 1) j' (by omega)

theorem trial1_spec (i : ℕ) : (trial1 i).1 = false ∧ (trial1 i).2 = true := by
  have hlen : (List.replicate SIZE (0 : F)).length = 2 ^ DIM := by
    simp [SIZE]
  have hspec := recurse_add_only_spec DIM (List.replicate SIZE (0 : F)) ((i + 1 : ℕ) : F) hlen
  simp only [trial1]
  rw [hspec]
  constructor
  · rw [List.map_replicate]
    apply List.any_eq_false.mpr
    intro x hx
    rw [List.eq_of_mem_replicate hx]
    simp
  · rfl

theorem trial2_spec (i : ℕ) : (trial2 i).1 = false ∧ (trial2 i).2 = true := by
  have hp : (gen_vec DIM (i + 2)).length = DIM := gen_vec_length ..
  have heq := mulOnly_eq_manual (gen_vec DIM (i + 2)) ((i + 2000 : ℕ) : F)
  rw [hp] at heq
  have hlen : (List.replicate (2 ^ DIM) (0 : F)).length = 2 ^ (gen_vec DIM (i + 2)).length := by
    rw [hp]; simp
  simp only [trial2, SIZE]
  constructor
  · exact decide_eq_false (fun hne => hne heq)
  · rw [Bool.and_eq_true]
    exact ⟨recurse_mul_only_flag_true _ _ _ (le_of_eq hlen.symm),
      manualMulRef_flag_true _ _ _⟩

theorem trial3_spec (i : ℕ) : (trial3 i).1 = false ∧ (trial3 i).2 = true := by
  have hp : (gen_vec DIM (i + 3)).length = DIM := gen_vec_length ..
  have heq := subOnly_eq_manual (gen_vec DIM (i + 3)) ((i + 3000 : ℕ) : F)
  rw [hp] at heq
  have hlen : (List.replicate (2 ^ DIM) (0 : F)).length = 2 ^ (gen_vec DIM (i + 3)).length := by
    rw [hp]; simp
  simp only [trial3, SIZE]
  constructor
  · exact decide_eq_false (fun hne => hne heq)
  · rw [Bool.and_eq_true]
    exact ⟨recurse_sub_only_flag_true _ _ _ (le_of_eq hlen.symm),
      manualSubRef_flag_true _ _ _⟩

theorem trial4_spec (i : ℕ) : (trial4 i).1 = false ∧ (trial4 i).2 = true := by
  have hp : (gen_vec DIM (i + 4)).length = DIM := gen_vec_length ..
  have hlen : 2 ^ (gen_vec DIM (i + 4)).length ≤ (List.replicate SIZE (0 : F)).length := by
    rw [hp]; simp [SIZE]
  have heq := rms_eq_reference (gen_vec DIM (i + 4)) (List.replicate SIZE (0 : F))
    ((i + 4000 : ℕ) : F) hlen
  simp only [trial4]
  constructor
  · exact decide_eq_false (fun hne => hne heq)
  · rw [Bool.and_eq_true]
    exact ⟨recurse_mul_sub_flag_true _ _ _ hlen, reference_flag_true _ _ _ hlen⟩

theorem fails1_eq_zero : fails1 = 0 := by
  rw [fails1]
  apply List.countP_eq_zero.mpr
  intro a _
  simp [(trial1_spec a).1]

theorem fails2_eq_zero : fails2 = 0 := by
  rw [fails2]
  apply List.countP_eq_zero.mpr
  intro a _
  simp [(trial2_spec a).1]

theorem fails3_eq_zero : fails3 = 0 := by
  rw [fails3]
  apply List.countP_eq_zero.mpr
  intro a _
  simp [(trial3_spec a).1]

theorem fails4_eq_zero : fails4 = 0 := by
  rw [fails4]
  apply List.countP_eq_zero.mpr
  intro a _
  simp [(trial4_spec a).1]

theorem mainPanicked_false : mainPanicked = false := by
  rw [mainPanicked]
  simp only [Bool.or_eq_false_iff]
  refine ⟨⟨⟨?_, ?_⟩, ?_⟩, ?_⟩
  · apply List.any_eq_false.mpr
    intro a _
    simp [(trial1_spec a).2]
  · apply List.any_eq_false.mpr
    intro a _
    simp [(trial2_spec a).2]
  · apply List.any_eq_false.mpr
    intro a _
    simp [(trial3_spec a).2]
  · apply List.any_eq_false.mpr
    intro a _
    simp [(trial4_spec a).2]

theorem mainExitCode_eq_zero : mainExitCode = 0 := by
  rw [mainExitCode, mainPanicked_false]
  rfl

section Claims

variable {R : Type} [CommRing R]

/-- C1: for every point vector of dimension `n ≥ 0` and every scalar `s`, running
the recursive builder `recurse_mul_sub` and the iterative reference builder
`reference` on accumulators of length `2^n` with identical initial contents
produces identical accumulator contents, cell for cell. -/
theorem C1_recursive_reference_equivalence (p acc : List R) (s : R)
    (h : acc.length = 2 ^ p.length) :
    (recurse_mul_sub acc p s).1 = (reference acc p s).1 :=
  rms_eq_reference p acc s (le_of_eq h.symm)

/-- Witness for C1 at a concrete input over `ZMod 17`. -/
theorem C1_recursive_reference_equivalence_witness :
    (([0, 0] : List (ZMod 17)).length = 2 ^ ([3] : List (ZMod 17)).length)
      ∧ (recurse_mul_sub ([0, 0] : List (ZMod 17)) [3] 2).1
          = (reference ([0, 0] : List (ZMod 17)) [3] 2).1 :=
  ⟨by decide, C1_recursive_reference_equivalence [3] [0, 0] 2 (by decide)⟩

/-- C2: after `recurse_mul_sub` returns on an accumulator of length `2^n`, the
cell at each `n`-bit index `b` has had added to it exactly `s` times the product
over `i` of (`x_i` if bit `i` of `b`, counted from the most significant of `n`
bits, is 1, else `1 - x_i`), the product being `eqTerm`. -/
theorem C2_post_condition (p acc : List R) (s : R) (h : acc.length = 2 ^ p.length)
    (b : ℕ) (hb : b < 2 ^ p.length) :
    (recurse_mul_sub acc p s).1.getD b 0 = acc.getD b 0 + s * eqTerm p b := by
  rw [recurse_mul_sub_getD p acc s (le_of_eq h.symm) b (by omega), if_pos hb]

/-- Witness for C2 at a concrete input over `ZMod 17`. -/
theorem C2_post_condition_witness :
    (([0, 0, 0, 0] : List (ZMod 17)).length = 2 ^ ([3, 5] : List (ZMod 17)).length)
      ∧ (2 < 2 ^ ([3, 5] : List (ZMod 17)).length)
      ∧ (recurse_mul_sub ([0, 0, 0, 0] : List (ZMod 17)) [3, 5] 2).1.getD 2 0
          = ([0, 0, 0, 0] : List (ZMod 17)).getD 2 0 + 2 * eqTerm [3, 5] 2 :=
  ⟨by decide, by decide,
    C2_post_condition [3, 5] [0, 0, 0, 0] 2 (by decide) 2 (by decide)⟩

/-- C3: over the prime field with modulus 17, building the equality tensor for
point `[3, 5]` with scalar 2 into a zeroed accumulator of length 4 yields
exactly `[16, 14, 10, 13]`, for both the recursive builder and the iterative
reference. -/
theorem C3_concrete_table :
    (recurse_mul_sub (List.replicate 4 (0 : ZMod 17)) [3, 5] 2).1 = [16, 14, 10, 13]
      ∧ (reference (List.replicate 4 (0 : ZMod 17)) [3, 5] 2).1 = [16, 14, 10, 13] := by
  constructor <;> decide

/-- C4: the modelled process exit status together with the four mismatch
counters of `main`: under the source-level semantics no trial ever records a
mismatch and no trial panics, so the process exits 0, and the biconditional
"exit status nonzero iff some configuration recorded a mismatch" holds. -/
theorem C4_exit_status :
    (mainExitCode ≠ 0 ↔ 0 < fails1 ∨ 0 < fails2 ∨ 0 < fails3 ∨ 0 < fails4)
      ∧ mainExitCode = 0
      ∧ fails1 = 0 ∧ fails2 = 0 ∧ fails3 = 0 ∧ fails4 = 0 := by
  refine ⟨?_, mainExitCode_eq_zero, fails1_eq_zero, fails2_eq_zero,
    fails3_eq_zero, fails4_eq_zero⟩
  rw [mainExitCode_eq_zero, fails1_eq_zero, fails2_eq_zero, fails3_eq_zero,
    fails4_eq_zero]
  simp

/-- Counterexample to C5 as stated: an accumulator strictly longer than `2^n`
(here length 3 for a 1-coordinate point, so `2^n = 2`) is not rejected — the
builder returns normally instead of aborting. -/
theorem C5_counterexample :
    (([0, 0, 0] : List (ZMod 17)).length ≠ 2 ^ ([3] : List (ZMod 17)).length)
      ∧ (recurse_mul_sub ([0, 0, 0] : List (ZMod 17)) [3] 2).2 = true := by
  constructor <;> decide

/-- C5 amended: a builder call on an accumulator shorter than `2^n` aborts with
a panic (flag `false`) rather than returning; an accumulator longer than `2^n`
is not detected — the call returns normally (flag `true`), and the recursive
builder leaves every cell from index `2^n` on unchanged. -/
theorem C5_amended_length_invariant (p acc : List R) (s : R) :
    (acc.length < 2 ^ p.length →
      (recurse_mul_sub acc p s).2 = false ∧ (reference acc p s).2 = false)
      ∧ (2 ^ p.length ≤ acc.length →
        (recurse_mul_sub acc p s).2 = true ∧ (reference acc p s).2 = true
          ∧ (recurse_mul_sub acc p s).1.drop (2 ^ p.length) = acc.drop (2 ^ p.length)) := by
  constructor
  · intro h
    exact ⟨recurse_mul_sub_flag_false p acc s h, reference_flag_false p acc s h⟩
  · intro h
    refine ⟨recurse_mul_sub_flag_true p acc s h, reference_flag_true p acc s h, ?_⟩
    rw [recurse_mul_sub_spec p acc s h]
    apply List.drop_left'
    rw [List.length_zipWith, tensor_length, List.length_take]
    omega

/-- Witness for the amended C5: a panic on a too-short accumulator and a normal
return on a too-long one, over `ZMod 17`. -/
theorem C5_amended_length_invariant_witness :
    ((recurse_mul_sub ([] : List (ZMod 17)) [3] 2).2 = false
        ∧ (reference ([] : List (ZMod 17)) [3] 2).2 = false)
      ∧ ((recurse_mul_sub ([0, 0, 0] : List (ZMod 17)) [3] 2).2 = true
        ∧ (reference ([0, 0, 0] : List (ZMod 17)) [3] 2).2 = true
        ∧ (recurse_mul_sub ([0, 0, 0] : List (ZMod 17)) [3] 2).1.drop
            (2 ^ ([3] : List (ZMod 17)).length)
            = ([0, 0, 0] : List (ZMod 17)).drop (2 ^ ([3] : List (ZMod 17)).length)) :=
  ⟨(C5_amended_length_invariant [3] [] 2).1 (by decide),
    (C5_amended_length_invariant [3] [0, 0, 0] 2).2 (by decide)⟩

/-- C6: invoking the builder with scalar `s` and then again on the same
un-reset accumulator with scalar `s'` yields exactly the contents of a single
invocation with scalar `s + s'`, for both the recursive builder and the
iterative reference. -/
theorem C6_additivity (p acc : List R) (s s' : R) (h : acc.length = 2 ^ p.length) :
    (recurse_mul_sub (recurse_mul_sub acc p s).1 p s').1
        = (recurse_mul_sub acc p (s + s')).1
      ∧ (reference (reference acc p s).1 p s').1 = (reference acc p (s + s')).1 := by
  have h' : 2 ^ p.length ≤ acc.length := le_of_eq h.symm
  have htake : (acc.take (2 ^ p.length)).length = 2 ^ p.length := by simp [h']
  have hzlen : (List.zipWith (· + ·) (acc.take (2 ^ p.length)) (tensor p s)).length
      = 2 ^ p.length := by
    rw [List.length_zipWith, htake, tensor_length, min_self]
  constructor
  · rw [recurse_mul_sub_spec p acc s h']
    rw [recurse_mul_sub_spec p _ s'
      (by rw [zip_take_drop_length acc _ _ h' (tensor_length p s)]; exact h')]
    rw [recurse_mul_sub_spec p acc (s + s') h']
    rw [List.take_left' hzlen, List.drop_left' hzlen]
    rw [tensor_add_scalar p s s', ← zipWith_add_assoc]
  · apply ext_getD
    · rw [reference_length, reference_length, reference_length]
    · intro j hj
      rw [reference_length, reference_length] at hj
      have hlen1 : 2 ^ p.length ≤ ((reference acc p s).1).length := by
        rw [reference_length]; exact h'
      rw [reference_getD p _ s' hlen1 j (by rw [reference_length]; exact hj)]
      rw [reference_getD p acc s h' j hj]
      rw [reference_getD p acc (s + s') h' j hj]
      by_cases hjn : j < 2 ^ p.length
      · rw [if_pos hjn, if_pos hjn, if_pos hjn]
        ring
      · rw [if_neg hjn, if_neg hjn, if_neg hjn]

/-- Witness for C6 at a concrete input over `ZMod 17`. -/
theorem C6_additivity_witness :
    (([0, 0] : List (ZMod 17)).length = 2 ^ ([3] : List (ZMod 17)).length)
      ∧ ((recurse_mul_sub (recurse_mul_sub ([0, 0] : List (ZMod 17)) [3] 2).1 [3] 4).1
          = (recurse_mul_sub ([0, 0] : List (ZMod 17)) [3] (2 + 4)).1
        ∧ (reference (reference ([0, 0] : List (ZMod 17)) [3] 2).1 [3] 4).1
          = (reference ([0, 0] : List (ZMod 17)) [3] (2 + 4)).1) :=
  ⟨by decide, C6_additivity [3] [0, 0] 2 4 (by decide)⟩

/-- C7: building into a zeroed accumulator, the sum of all `2^n` cells equals
`s` times the sum of all product terms, which telescopes to `s`; and for a
point with all coordinates 0 (resp. all 1) the scalar lands entirely in cell 0
(resp. cell `2^n - 1`) and every other cell is zero. -/
theorem C7_sum_law (p : List R) (s : R) :
    ((recurse_mul_sub (List.replicate (2 ^ p.length) 0) p s).1.sum
        = s * ∑ b ∈ Finset.range (2 ^ p.length), eqTerm p b)
      ∧ (recurse_mul_sub (List.replicate (2 ^ p.length) 0) p s).1.sum = s
      ∧ ((∀ x ∈ p, x = 0) →
          (recurse_mul_sub (List.replicate (2 ^ p.length) 0) p s).1
            = s :: List.replicate (2 ^ p.length - 1) 0)
      ∧ ((∀ x ∈ p, x = 1) →
          (recurse_mul_sub (List.replicate (2 ^ p.length) 0) p s).1
            = List.replicate (2 ^ p.length - 1) 0 ++ [s]) := by
  rw [rms_zero_acc]
  refine ⟨?_, tensor_sum p s, tensor_all_zero p s, tensor_all_one p s⟩
  rw [tensor_sum, eqTerm_sum_one, mul_one]

/-- Witness for C7's two conditional clauses, at all-zero and all-one points
over `ZMod 17`. -/
theorem C7_sum_law_witness :
    ((recurse_mul_sub
          (List.replicate (2 ^ ([0, 0] : List (ZMod 17)).length) (0 : ZMod 17))
          ([0, 0] : List (ZMod 17)) 2).1
        = 2 :: List.replicate (2 ^ ([0, 0] : List (ZMod 17)).length - 1) 0)
      ∧ ((recurse_mul_sub
          (List.replicate (2 ^ ([1, 1] : List (ZMod 17)).length) (0 : ZMod 17))
          ([1, 1] : List (ZMod 17)) 2).1
        = List.replicate (2 ^ ([1, 1] : List (ZMod 17)).length - 1) 0 ++ [2]) :=
  ⟨(C7_sum_law ([0, 0] : List (ZMod 17)) 2).2.2.1 (by decide),
    (C7_sum_law ([1, 1] : List (ZMod 17)) 2).2.2.2 (by decide)⟩

/-- C8: the identity `s·(1-x) = s - s·x` holds exactly in any commutative ring,
hence in the prime field; the `s0 = scalar - scalar·x0` computed by the
recursive builder is the amount added to the zero-bit cell, and it coincides
with the factor `scalar·(1-x0)` that the reference builder multiplies in. -/
theorem C8_mul_sub_identity (s x a b : R) :
    s * (1 - x) = s - s * x
      ∧ (recurse_mul_sub [a, b] [x] s).1 = [a + (s - s * x), b + s * x]
      ∧ (reference [a, b] [x] s).1 = [a + s * (1 - x), b + s * x] := by
  refine ⟨by ring, rfl, ?_⟩
  simp [reference, buildLoop, contribution, List.set]

/-- C9: `gen_vec` returns a vector of the requested length satisfying the
recurrence `v_0 = seed` (reduced into the field) and `v_{j+1} = v_j·seed + 1`;
as a pure function of `(size, seed)` it is deterministic. -/
theorem C9_gen_vec_recurrence (size seed : ℕ) :
    (gen_vec size seed).length = size
      ∧ (0 < size → (gen_vec size seed).getD 0 0 = ((seed : ℕ) : F))
      ∧ (∀ j, j + 1 < size →
          (gen_vec size seed).getD (j + 1) 0
            = (gen_vec size seed).getD j 0 * ((seed : ℕ) : F) + 1) := by
  refine ⟨gen_vec_length size seed, ?_, ?_⟩
  · intro h
    exact genVecAux_getD_zero size _ _ h
  · intro j hj
    exact genVecAux_getD_succ size _ _ j hj

/-- Witness for C9 at `size = 3`, `seed = 5`. -/
theorem C9_gen_vec_recurrence_witness :
    (gen_vec 3 5).length = 3
      ∧ (gen_vec 3 5).getD 0 0 = ((5 : ℕ) : F)
      ∧ (gen_vec 3 5).getD 1 0 = (gen_vec 3 5).getD 0 0 * ((5 : ℕ) : F) + 1 :=
  ⟨(C9_gen_vec_recurrence 3 5).1, (C9_gen_vec_recurrence 3 5).2.1 (by decide),
    (C9_gen_vec_recurrence 3 5).2.2 0 (by decide)⟩

/-- C10: on an accumulator at least as long as `2^n`, `recurse_mul_sub`
preserves the length and leaves every cell at index `2^n` or beyond unchanged
(each split takes exactly the first `2^(n-1)` cells, so the surplus trails
into the high side and is never written). -/
theorem C10_frame (p acc : List R) (s : R) (h : 2 ^ p.length ≤ acc.length) :
    (recurse_mul_sub acc p s).1.length = acc.length
      ∧ ∀ b, 2 ^ p.length ≤ b →
          (recurse_mul_sub acc p s).1.getD b 0 = acc.getD b 0 := by
  refine ⟨recurse_mul_sub_length p acc s h, ?_⟩
  intro b hb
  by_cases hbl : b < acc.length
  · rw [recurse_mul_sub_getD p acc s h b hbl, if_neg (by omega)]
  · rw [List.getD_eq_default _ _ (by rw [recurse_mul_sub_length p acc s h]; omega),
      List.getD_eq_default _ _ (by omega)]

/-- Witness for C10 on a length-3 accumulator with a 1-coordinate point over
`ZMod 17`. -/
theorem C10_frame_witness :
    (2 ^ ([3] : List (ZMod 17)).length ≤ ([1, 2, 3] : List (ZMod 17)).length)
      ∧ (recurse_mul_sub ([1, 2, 3] : List (ZMod 17)) [3] 2).1.length
          = ([1, 2, 3] : List (ZMod 17)).length
      ∧ (recurse_mul_sub ([1, 2, 3] : List (ZMod 17)) [3] 2).1.getD 2 0
          = ([1, 2, 3] : List (ZMod 17)).getD 2 0 :=
  ⟨by decide, (C10_frame [3] [1, 2, 3] 2 (by decide)).1,
    (C10_frame [3] [1, 2, 3] 2 (by decide)).2 2 (by decide)⟩

end Claims
